import Mathlib

/-!
Shallow embedding of the `cdlist` crate (src/src/lib.rs): an intrusive,
circular, doubly linked list.  The heap is modelled as a total function
from addresses (`Nat`) to `Inner` records; each record holds the user
data and a `ListHead` whose `prev`/`next` fields are `Option Nat`,
where `none` models a `MaybeUninit` field that was never written and
`assume_init` on such a field is a failing read (`Option` propagation).
All operations of the source are translated as heap transformers; the
pointer-chasing traversal loops take an explicit fuel argument.
-/

namespace Cdlist

/-- Mirror of `ListHead<T>`: `prev` and `next` are `MaybeUninit<NonNull<ListHead<T>>>`;
`none` models an uninitialized field, `some a` an initialized pointer to address `a`. -/
structure ListHead where
  prev : Option Nat
  next : Option Nat
deriving DecidableEq

/-- Mirror of `Inner<T>`: the user data together with the embedded link record. -/
structure Inner (α : Type) where
  data : α
  list : ListHead
deriving DecidableEq

/-- The heap: a total map from addresses to `Inner` records.  Addresses that are
not allocated hold junk that no verified operation ever reads. -/
abbrev Heap (α : Type) : Type := Nat → Inner α

variable {α : Type} {σ : Type}

/-- Read `self.prev.assume_init()`; fails (`none`) when the field is uninitialized. -/
def readPrev (h : Heap α) (a : Nat) : Option Nat := (h a).list.prev

/-- Read `self.next.assume_init()`; fails (`none`) when the field is uninitialized. -/
def readNext (h : Heap α) (a : Nat) : Option Nat := (h a).list.next

/-- `self.prev.write(v)` at address `a`. -/
def writePrev (h : Heap α) (a v : Nat) : Heap α := fun x =>
  if x = a then ⟨(h x).data, ⟨some v, (h x).list.next⟩⟩ else h x

/-- `self.next.write(v)` at address `a`. -/
def writeNext (h : Heap α) (a v : Nat) : Heap α := fun x =>
  if x = a then ⟨(h x).data, ⟨(h x).list.prev, some v⟩⟩ else h x

/-- Overwrite the user data at address `a` (a write through `DerefMut`). -/
def writeData (h : Heap α) (a : Nat) (v : α) : Heap α := fun x =>
  if x = a then ⟨v, (h x).list⟩ else h x

/-- `Box::pin(Inner { data, list: ListHead { prev: uninit, next: uninit } })`:
place a fresh record with uninitialized links at address `a`. -/
def alloc (h : Heap α) (a : Nat) (v : α) : Heap α := fun x =>
  if x = a then ⟨v, ⟨none, none⟩⟩ else h x

/-- `ListHead::init_head`: set both links of `a` to `a` itself. -/
def ListHead.init_head (h : Heap α) (a : Nat) : Heap α :=
  writeNext (writePrev h a a) a a

/-- The two writes of `ListHead::delist` once `p = a.prev` and `n = a.next`
have been read: `p.next.write(n); n.prev.write(p)`. -/
def ListHead.delistWrites (h : Heap α) (p n : Nat) : Heap α :=
  writePrev (writeNext h p n) n p

/-- `ListHead::delist`: read `prev` and `next` of `a`, then link them to each
other (`prev.next.write(next); next.prev.write(prev)`).  The record `a`
itself keeps its now-stale links. -/
def ListHead.delist (h : Heap α) (a : Nat) : Option (Heap α) :=
  match readPrev h a, readNext h a with
  | some p, some n => some (ListHead.delistWrites h p n)
  | _, _ => none

/-- The four writes of `ListHead::add` once `next_ptr = selfA.next` has been
read, in source order: `other.prev`, `other.next`, `next.prev`, `self.next`. -/
def ListHead.addWrites (h : Heap α) (selfA other next_ptr : Nat) : Heap α :=
  writeNext (writePrev (writeNext (writePrev h other selfA) other next_ptr)
    next_ptr other) selfA other

/-- `ListHead::add`: insert `other` between `selfA` and `selfA`'s current
successor. -/
def ListHead.add (h : Heap α) (selfA other : Nat) : Option (Heap α) :=
  match readNext h selfA with
  | some next_ptr => some (ListHead.addWrites h selfA other next_ptr)
  | none => none

/-- `ListHead::for_each` loop body, with explicit fuel: apply `f` to the data of
the current record, stop when the successor is the starting record, else advance. -/
def ListHead.for_eachAux (f : σ → α → σ) (h : Heap α) (selfA : Nat) :
    Nat → Nat → σ → Option σ
  | 0, _, _ => none
  | fuel + 1, cur, s =>
    let s1 := f s (h cur).data
    match readNext h cur with
    | none => none
    | some nxt =>
      if nxt = selfA then some s1 else ListHead.for_eachAux f h selfA fuel nxt s1

/-- `ListHead::for_each`: fold the visitor over the ring starting at `a`. -/
def ListHead.for_each (f : σ → α → σ) (h : Heap α) (a : Nat) (s : σ) (fuel : Nat) :
    Option σ :=
  ListHead.for_eachAux f h a fuel a s

/-- `ListHead::for_each_rev` loop body: as `for_eachAux` but following `prev`. -/
def ListHead.for_each_revAux (f : σ → α → σ) (h : Heap α) (selfA : Nat) :
    Nat → Nat → σ → Option σ
  | 0, _, _ => none
  | fuel + 1, cur, s =>
    let s1 := f s (h cur).data
    match readPrev h cur with
    | none => none
    | some prv =>
      if prv = selfA then some s1 else ListHead.for_each_revAux f h selfA fuel prv s1

/-- `ListHead::for_each_rev`: fold the visitor backwards over the ring. -/
def ListHead.for_each_rev (f : σ → α → σ) (h : Heap α) (a : Nat) (s : σ) (fuel : Nat) :
    Option σ :=
  ListHead.for_each_revAux f h a fuel a s

/-- `ListHead::for_each_mut` loop body: the visitor is an arbitrary stateful
function `σ → α → σ × α`; its returned value is written back to the current
record before advancing along `next`. -/
def ListHead.for_each_mutAux (f : σ → α → σ × α) (h : Heap α) (selfA : Nat) :
    Nat → Nat → σ → Option (Heap α × σ)
  | 0, _, _ => none
  | fuel + 1, cur, s =>
    let p := f s (h cur).data
    let h1 := writeData h cur p.2
    match readNext h1 cur with
    | none => none
    | some nxt =>
      if nxt = selfA then some (h1, p.1)
      else ListHead.for_each_mutAux f h1 selfA fuel nxt p.1

/-- `ListHead::for_each_mut`. -/
def ListHead.for_each_mut (f : σ → α → σ × α) (h : Heap α) (a : Nat) (s : σ)
    (fuel : Nat) : Option (Heap α × σ) :=
  ListHead.for_each_mutAux f h a fuel a s

/-- `ListHead::for_each_rev_mut` loop body: as `for_each_mutAux` but following `prev`. -/
def ListHead.for_each_rev_mutAux (f : σ → α → σ × α) (h : Heap α) (selfA : Nat) :
    Nat → Nat → σ → Option (Heap α × σ)
  | 0, _, _ => none
  | fuel + 1, cur, s =>
    let p := f s (h cur).data
    let h1 := writeData h cur p.2
    match readPrev h1 cur with
    | none => none
    | some prv =>
      if prv = selfA then some (h1, p.1)
      else ListHead.for_each_rev_mutAux f h1 selfA fuel prv p.1

/-- `ListHead::for_each_rev_mut`. -/
def ListHead.for_each_rev_mut (f : σ → α → σ × α) (h : Heap α) (a : Nat) (s : σ)
    (fuel : Nat) : Option (Heap α × σ) :=
  ListHead.for_each_rev_mutAux f h a fuel a s

/-- `LinkNode::new`: allocate `(data, uninit links)` at a fresh address `a`,
then `init_head` it into a singleton ring. -/
def LinkNode.new (h : Heap α) (a : Nat) (v : α) : Heap α :=
  ListHead.init_head (alloc h a v) a

/-- `LinkNode::add`: `other.delist(); self.add(other)`. -/
def LinkNode.add (h : Heap α) (selfA other : Nat) : Option (Heap α) :=
  (ListHead.delist h other).bind fun h1 => ListHead.add h1 selfA other

/-- `LinkNode::add_to`: `other.add(self)`. -/
def LinkNode.add_to (h : Heap α) (selfA other : Nat) : Option (Heap α) :=
  LinkNode.add h other selfA

/-- `LinkNode::take`: `self.delist(); self.init_head()`. -/
def LinkNode.take (h : Heap α) (a : Nat) : Option (Heap α) :=
  (ListHead.delist h a).map fun h1 => ListHead.init_head h1 a

/-- `Drop for LinkNode`: `self.delist()` and then the allocation at `a` is
released (its address leaves the allocated set). -/
def LinkNode.drop (h : Heap α) (a : Nat) : Option (Heap α) :=
  ListHead.delist h a

/-- `Deref for LinkNode`: read the owned value. -/
def LinkNode.deref (h : Heap α) (a : Nat) : α := (h a).data

/-- A write through `DerefMut for LinkNode`: replace the owned value. -/
def LinkNode.deref_mut_write (h : Heap α) (a : Nat) (v : α) : Heap α :=
  writeData h a v

/-- The four traversal entry points of `LinkNode` delegate to `ListHead`. -/
def LinkNode.for_each (f : σ → α → σ) (h : Heap α) (a : Nat) (s : σ) (fuel : Nat) :
    Option σ :=
  ListHead.for_each f h a s fuel

/-- `LinkNode::for_each_mut`. -/
def LinkNode.for_each_mut (f : σ → α → σ × α) (h : Heap α) (a : Nat) (s : σ)
    (fuel : Nat) : Option (Heap α × σ) :=
  ListHead.for_each_mut f h a s fuel

/-- `LinkNode::for_each_rev`. -/
def LinkNode.for_each_rev (f : σ → α → σ) (h : Heap α) (a : Nat) (s : σ)
    (fuel : Nat) : Option σ :=
  ListHead.for_each_rev f h a s fuel

/-- `LinkNode::for_each_mut_rev`. -/
def LinkNode.for_each_mut_rev (f : σ → α → σ × α) (h : Heap α) (a : Nat) (s : σ)
    (fuel : Nat) : Option (Heap α × σ) :=
  ListHead.for_each_rev_mut f h a s fuel

/-- Iterate `readNext` `k` times from `a` (the address reached after `k`
forward steps), failing on any uninitialized field. -/
def iterNext (h : Heap α) (a : Nat) : Nat → Option Nat
  | 0 => some a
  | k + 1 => (iterNext h a k).bind (readNext h)

/-- Total version of `iterNext`, defaulting to the start address; under the
ring invariant the two agree on live addresses. -/
def iterNextD (h : Heap α) (a k : Nat) : Nat := (iterNext h a k).getD a

/-- The first `n` addresses of the forward orbit of `a`. -/
def orbitList (h : Heap α) (a n : Nat) : List Nat :=
  (List.range n).map (iterNextD h a)

/-- The sequence of addresses the forward traversal loop visits, starting at
`cur` and stopping just before coming back to `selfA`; fuel-limited. -/
def traceAux (h : Heap α) (selfA : Nat) : Nat → Nat → Option (List Nat)
  | 0, _ => none
  | fuel + 1, cur =>
    match readNext h cur with
    | none => none
    | some nxt =>
      if nxt = selfA then some [cur]
      else (traceAux h selfA fuel nxt).map fun as => cur :: as

/-- Run a stateful read-write visitor over a list of values, returning the
final visitor state and the list of written-back values. -/
def runVisitor (f : σ → α → σ × α) : σ → List α → σ × List α
  | s, [] => (s, [])
  | s, v :: vs =>
    let p := f s v
    let q := runVisitor f p.1 vs
    (q.1, p.2 :: q.2)

/-- Write a list of `(address, value)` pairs into the heap, left to right. -/
def writeDataList (h : Heap α) : List (Nat × α) → Heap α
  | [] => h
  | p :: ps => writeDataList (writeData h p.1 p.2) ps

/-- Swap the `prev` and `next` fields of every record: backward traversal of
`h` is forward traversal of `flipHeap h`. -/
def flipHeap (h : Heap α) : Heap α := fun a =>
  ⟨(h a).data, ⟨(h a).list.next, (h a).list.prev⟩⟩

/-- The ring invariant of the spec, on the set `D` of live addresses: every
live record has initialized links into `D`, `L.prev.next == L`, and
`L.next.prev == L`. -/
def WF (D : Finset Nat) (h : Heap α) : Prop :=
  ∀ a ∈ D, (∃ b ∈ D, readNext h a = some b ∧ readPrev h b = some a) ∧
    (∃ b ∈ D, readPrev h a = some b ∧ readNext h b = some a)

instance (D : Finset Nat) (h : Heap α) : Decidable (WF D h) := by
  unfold WF; infer_instance

/-- States reachable from any junk heap by the public constructors and ring
operations of `LinkNode`: `new` (construct), `add`/`add_to` (splice and
splice-before) and `take` (detach).  `D` is the set of live addresses. -/
inductive Built : Finset Nat → Heap α → Prop
  | base (h : Heap α) : Built ∅ h
  | new {D : Finset Nat} {h : Heap α} (hb : Built D h) (a : Nat) (ha : a ∉ D) (v : α) :
      Built (insert a D) (LinkNode.new h a v)
  | add {D : Finset Nat} {h : Heap α} (hb : Built D h) (A B : Nat) (hA : A ∈ D)
      (hBm : B ∈ D) (hne : A ≠ B) (hs : (LinkNode.add h A B).isSome = true) :
      Built D ((LinkNode.add h A B).get hs)
  | add_to {D : Finset Nat} {h : Heap α} (hb : Built D h) (A B : Nat) (hA : A ∈ D)
      (hBm : B ∈ D) (hne : A ≠ B) (hs : (LinkNode.add_to h A B).isSome = true) :
      Built D ((LinkNode.add_to h A B).get hs)
  | take {D : Finset Nat} {h : Heap α} (hb : Built D h) (a : Nat) (ha : a ∈ D)
      (hs : (LinkNode.take h a).isSome = true) :
      Built D ((LinkNode.take h a).get hs)

/-- A heap of all-uninitialized records, used as the base of concrete examples. -/
def emptyHeap : Heap Nat := fun _ => ⟨0, ⟨none, none⟩⟩

/-- Two freshly constructed singleton nodes, at addresses 0 and 1. -/
def pairHeap : Heap Nat := LinkNode.new (LinkNode.new emptyHeap 0 10) 1 20

/-- The live address set of `pairHeap`. -/
def pairDom : Finset Nat := insert 1 (insert 0 ∅)

/-! ### Pointwise effect of the write primitives -/

theorem readNext_writeNext (h : Heap α) (a v x : Nat) :
    readNext (writeNext h a v) x = if x = a then some v else readNext h x := by
  simp only [readNext, writeNext]; split <;> rfl

theorem readPrev_writeNext (h : Heap α) (a v x : Nat) :
    readPrev (writeNext h a v) x = readPrev h x := by
  simp only [readPrev, writeNext]; split <;> rfl

theorem readNext_writePrev (h : Heap α) (a v x : Nat) :
    readNext (writePrev h a v) x = readNext h x := by
  simp only [readNext, writePrev]; split <;> rfl

theorem readPrev_writePrev (h : Heap α) (a v x : Nat) :
    readPrev (writePrev h a v) x = if x = a then some v else readPrev h x := by
  simp only [readPrev, writePrev]; split <;> rfl

theorem data_writeNext (h : Heap α) (a v x : Nat) :
    ((writeNext h a v) x).data = (h x).data := by
  simp only [writeNext]; split <;> rfl

theorem data_writePrev (h : Heap α) (a v x : Nat) :
    ((writePrev h a v) x).data = (h x).data := by
  simp only [writePrev]; split <;> rfl

theorem readNext_writeData (h : Heap α) (a : Nat) (v : α) (x : Nat) :
    readNext (writeData h a v) x = readNext h x := by
  simp only [readNext, writeData]; split <;> rfl

theorem readPrev_writeData (h : Heap α) (a : Nat) (v : α) (x : Nat) :
    readPrev (writeData h a v) x = readPrev h x := by
  simp only [readPrev, writeData]; split <;> rfl

theorem list_writeData (h : Heap α) (a : Nat) (v : α) (x : Nat) :
    ((writeData h a v) x).list = (h x).list := by
  simp only [writeData]; split <;> rfl

theorem writeData_apply_ne (h : Heap α) (a : Nat) (v : α) {x : Nat} (hx : x ≠ a) :
    (writeData h a v) x = h x := by
  simp only [writeData, if_neg hx]

theorem data_writeData (h : Heap α) (a : Nat) (v : α) (x : Nat) :
    ((writeData h a v) x).data = if x = a then v else (h x).data := by
  simp only [writeData]; split <;> rfl

/-! ### Pointwise effect of the composite operations -/

theorem readNext_init_head (h : Heap α) (a x : Nat) :
    readNext (ListHead.init_head h a) x = if x = a then some a else readNext h x := by
  simp [ListHead.init_head, readNext_writeNext, readNext_writePrev]

theorem readPrev_init_head (h : Heap α) (a x : Nat) :
    readPrev (ListHead.init_head h a) x = if x = a then some a else readPrev h x := by
  simp [ListHead.init_head, readPrev_writeNext, readPrev_writePrev]

theorem data_init_head (h : Heap α) (a x : Nat) :
    ((ListHead.init_head h a) x).data = (h x).data := by
  simp [ListHead.init_head, data_writeNext, data_writePrev]

theorem init_head_apply_ne (h : Heap α) (a : Nat) {x : Nat} (hx : x ≠ a) :
    (ListHead.init_head h a) x = h x := by
  simp only [ListHead.init_head, writeNext, writePrev, if_neg hx]

theorem readNext_new (h : Heap α) (a : Nat) (v : α) (x : Nat) :
    readNext (LinkNode.new h a v) x = if x = a then some a else readNext h x := by
  simp only [LinkNode.new, readNext_init_head]
  split
  · rfl
  · simp only [readNext, alloc]; rw [if_neg]; assumption

theorem readPrev_new (h : Heap α) (a : Nat) (v : α) (x : Nat) :
    readPrev (LinkNode.new h a v) x = if x = a then some a else readPrev h x := by
  simp only [LinkNode.new, readPrev_init_head]
  split
  · rfl
  · simp only [readPrev, alloc]; rw [if_neg]; assumption

theorem new_apply_ne (h : Heap α) (a : Nat) (v : α) {x : Nat} (hx : x ≠ a) :
    (LinkNode.new h a v) x = h x := by
  rw [LinkNode.new, init_head_apply_ne _ _ hx]
  simp only [alloc, if_neg hx]

theorem new_apply_self (h : Heap α) (a : Nat) (v : α) :
    (LinkNode.new h a v) a = ⟨v, ⟨some a, some a⟩⟩ := by
  simp [LinkNode.new, ListHead.init_head, writeNext, writePrev, alloc]

theorem readNext_delistWrites (h : Heap α) (p n x : Nat) :
    readNext (ListHead.delistWrites h p n) x = if x = p then some n else readNext h x := by
  simp [ListHead.delistWrites, readNext_writePrev, readNext_writeNext]

theorem readPrev_delistWrites (h : Heap α) (p n x : Nat) :
    readPrev (ListHead.delistWrites h p n) x = if x = n then some p else readPrev h x := by
  simp [ListHead.delistWrites, readPrev_writePrev, readPrev_writeNext]

theorem data_delistWrites (h : Heap α) (p n x : Nat) :
    ((ListHead.delistWrites h p n) x).data = (h x).data := by
  simp [ListHead.delistWrites, data_writePrev, data_writeNext]

theorem delistWrites_apply_ne (h : Heap α) (p n : Nat) {x : Nat}
    (hp : x ≠ p) (hn : x ≠ n) : (ListHead.delistWrites h p n) x = h x := by
  simp only [ListHead.delistWrites, writePrev, writeNext, if_neg hp, if_neg hn]

theorem readNext_addWrites (h : Heap α) (A B m x : Nat) :
    readNext (ListHead.addWrites h A B m) x =
      if x = A then some B else if x = B then some m else readNext h x := by
  simp [ListHead.addWrites, readNext_writePrev, readNext_writeNext]

theorem readPrev_addWrites (h : Heap α) (A B m x : Nat) :
    readPrev (ListHead.addWrites h A B m) x =
      if x = m then some B else if x = B then some A else readPrev h x := by
  simp [ListHead.addWrites, readPrev_writePrev, readPrev_writeNext]

theorem data_addWrites (h : Heap α) (A B m x : Nat) :
    ((ListHead.addWrites h A B m) x).data = (h x).data := by
  simp [ListHead.addWrites, data_writePrev, data_writeNext]

theorem addWrites_apply_ne (h : Heap α) (A B m : Nat) {x : Nat}
    (hA : x ≠ A) (hB : x ≠ B) (hm : x ≠ m) : (ListHead.addWrites h A B m) x = h x := by
  simp only [ListHead.addWrites, writePrev, writeNext, if_neg hA, if_neg hB, if_neg hm]

theorem delist_eq (h : Heap α) {a p n : Nat}
    (hp : readPrev h a = some p) (hn : readNext h a = some n) :
    ListHead.delist h a = some (ListHead.delistWrites h p n) := by
  simp [ListHead.delist, hp, hn]

theorem listHead_add_eq (h : Heap α) {A B m : Nat} (hm : readNext h A = some m) :
    ListHead.add h A B = some (ListHead.addWrites h A B m) := by
  simp [ListHead.add, hm]

theorem linkNode_add_eq (h : Heap α) {A B p n m0 : Nat}
    (hp : readPrev h B = some p) (hn : readNext h B = some n)
    (hm0 : readNext h A = some m0) :
    LinkNode.add h A B =
      some (ListHead.addWrites (ListHead.delistWrites h p n) A B
        (if A = p then n else m0)) := by
  rw [LinkNode.add, delist_eq h hp hn, Option.some_bind]
  apply listHead_add_eq
  rw [readNext_delistWrites]
  by_cases hAp : A = p
  · simp [hAp, hn]
  · simp [hAp, hm0]

theorem linkNode_take_eq (h : Heap α) {a p n : Nat}
    (hp : readPrev h a = some p) (hn : readNext h a = some n) :
    LinkNode.take h a =
      some (ListHead.init_head (ListHead.delistWrites h p n) a) := by
  rw [LinkNode.take, delist_eq h hp hn, Option.map_some']

/-! ### Basic consequences of the ring invariant -/

theorem WF.next_spec {D : Finset Nat} {h : Heap α} (hwf : WF D h) {a : Nat} (ha : a ∈ D) :
    ∃ b ∈ D, readNext h a = some b ∧ readPrev h b = some a :=
  (hwf a ha).1

theorem WF.prev_spec {D : Finset Nat} {h : Heap α} (hwf : WF D h) {a : Nat} (ha : a ∈ D) :
    ∃ b ∈ D, readPrev h a = some b ∧ readNext h b = some a :=
  (hwf a ha).2

theorem WF.next_closed {D : Finset Nat} {h : Heap α} (hwf : WF D h) {a b : Nat}
    (ha : a ∈ D) (hb : readNext h a = some b) : b ∈ D ∧ readPrev h b = some a := by
  obtain ⟨c, hc, hnc, hpc⟩ := hwf.next_spec ha
  rw [hnc] at hb
  cases hb
  exact ⟨hc, hpc⟩

theorem WF.prev_closed {D : Finset Nat} {h : Heap α} (hwf : WF D h) {a b : Nat}
    (ha : a ∈ D) (hb : readPrev h a = some b) : b ∈ D ∧ readNext h b = some a := by
  obtain ⟨c, hc, hpc, hnc⟩ := hwf.prev_spec ha
  rw [hpc] at hb
  cases hb
  exact ⟨hc, hnc⟩

theorem WF.next_inj {D : Finset Nat} {h : Heap α} (hwf : WF D h) {a b c : Nat}
    (ha : a ∈ D) (hb : b ∈ D) (hna : readNext h a = some c)
    (hnb : readNext h b = some c) : a = b := by
  have h1 := (hwf.next_closed ha hna).2
  have h2 := (hwf.next_closed hb hnb).2
  rw [h1] at h2
  cases h2
  rfl

theorem WF.prev_inj {D : Finset Nat} {h : Heap α} (hwf : WF D h) {a b c : Nat}
    (ha : a ∈ D) (hb : b ∈ D) (hpa : readPrev h a = some c)
    (hpb : readPrev h b = some c) : a = b := by
  have h1 := (hwf.prev_closed ha hpa).2
  have h2 := (hwf.prev_closed hb hpb).2
  rw [h1] at h2
  cases h2
  rfl

/-- The ring invariant follows from its forward half alone: on a finite live
set, a successor map admitting a left inverse is surjective. -/
theorem wf_of_forward {D : Finset Nat} {h : Heap α}
    (hf : ∀ a ∈ D, ∃ b ∈ D, readNext h a = some b ∧ readPrev h b = some a) :
    WF D h := by
  have hsurj : ∀ b ∈ D, ∃ a, ∃ ha : a ∈ D,
      b = Classical.choose (hf a ha) := by
    apply Finset.surj_on_of_inj_on_of_card_le
      (fun a ha => Classical.choose (hf a ha))
    · intro a ha
      exact (Classical.choose_spec (hf a ha)).1
    · intro a b ha hb heq
      have sa := (Classical.choose_spec (hf a ha)).2.2
      have sb := (Classical.choose_spec (hf b hb)).2.2
      rw [heq] at sa
      rw [sa] at sb
      cases sb
      rfl
    · exact le_refl _
  intro a ha
  refine ⟨hf a ha, ?_⟩
  obtain ⟨c, hc, hbc⟩ := hsurj a ha
  obtain ⟨hcD, hnc, hpc⟩ := Classical.choose_spec (hf c hc)
  rw [← hbc] at hnc hpc
  exact ⟨c, hc, hpc, hnc⟩

/-! ### Field-level characterization of splice and detach -/

theorem add_fields (h : Heap α) {A B p n m0 : Nat}
    (hp : readPrev h B = some p) (hn : readNext h B = some n)
    (hm0 : readNext h A = some m0) :
    ∃ h2, LinkNode.add h A B = some h2 ∧
      (∀ x, readNext h2 x = if x = A then some B
        else if x = B then some (if A = p then n else m0)
        else if x = p then some n else readNext h x) ∧
      (∀ x, readPrev h2 x = if x = (if A = p then n else m0) then some B
        else if x = B then some A
        else if x = n then some p else readPrev h x) ∧
      (∀ x, (h2 x).data = (h x).data) ∧
      (∀ x, x ≠ A → x ≠ B → x ≠ p → x ≠ n → x ≠ (if A = p then n else m0) →
        h2 x = h x) := by
  refine ⟨_, linkNode_add_eq h hp hn hm0, ?_, ?_, ?_, ?_⟩
  · intro x
    rw [readNext_addWrites, readNext_delistWrites]
  · intro x
    rw [readPrev_addWrites, readPrev_delistWrites]
  · intro x
    rw [data_addWrites, data_delistWrites]
  · intro x hxA hxB hxp hxn hxm
    rw [addWrites_apply_ne _ _ _ _ hxA hxB hxm, delistWrites_apply_ne _ _ _ hxp hxn]

theorem take_fields (h : Heap α) {a p n : Nat}
    (hp : readPrev h a = some p) (hn : readNext h a = some n) :
    ∃ h2, LinkNode.take h a = some h2 ∧
      (∀ x, readNext h2 x = if x = a then some a
        else if x = p then some n else readNext h x) ∧
      (∀ x, readPrev h2 x = if x = a then some a
        else if x = n then some p else readPrev h x) ∧
      (∀ x, (h2 x).data = (h x).data) ∧
      (∀ x, x ≠ a → x ≠ p → x ≠ n → h2 x = h x) := by
  refine ⟨_, linkNode_take_eq h hp hn, ?_, ?_, ?_, ?_⟩
  · intro x
    rw [readNext_init_head, readNext_delistWrites]
  · intro x
    rw [readPrev_init_head, readPrev_delistWrites]
  · intro x
    rw [data_init_head, data_delistWrites]
  · intro x hxa hxp hxn
    rw [init_head_apply_ne _ _ hxa, delistWrites_apply_ne _ _ _ hxp hxn]

/-! ### Preservation of the ring invariant -/

theorem wf_new {D : Finset Nat} {h : Heap α} (hwf : WF D h) {a : Nat}
    (ha : a ∉ D) (v : α) : WF (insert a D) (LinkNode.new h a v) := by
  apply wf_of_forward
  intro x hx
  rcases Finset.mem_insert.1 hx with hxa | hxD
  · subst hxa
    refine ⟨x, Finset.mem_insert_self x D, ?_, ?_⟩
    · rw [readNext_new, if_pos rfl]
    · rw [readPrev_new, if_pos rfl]
  · obtain ⟨z, hzD, hz, hpz⟩ := hwf.next_spec hxD
    have hxa2 : x ≠ a := fun hc => ha (hc ▸ hxD)
    have hza2 : z ≠ a := fun hc => ha (hc ▸ hzD)
    refine ⟨z, Finset.mem_insert_of_mem hzD, ?_, ?_⟩
    · rw [readNext_new, if_neg hxa2]
      exact hz
    · rw [readPrev_new, if_neg hza2]
      exact hpz

theorem wf_writeData {D : Finset Nat} {h : Heap α} (hwf : WF D h) (a : Nat) (v : α) :
    WF D (writeData h a v) := by
  intro x hx
  simpa only [readNext_writeData, readPrev_writeData] using hwf x hx

theorem wf_add {D : Finset Nat} {h : Heap α} {A B : Nat} (hwf : WF D h)
    (hA : A ∈ D) (hB : B ∈ D) (hne : A ≠ B) :
    ∃ h2, LinkNode.add h A B = some h2 ∧ WF D h2 ∧
      (∀ x, (h2 x).data = (h x).data) := by
  obtain ⟨p, hpD, hp, hnp⟩ := hwf.prev_spec hB
  obtain ⟨n, hnD, hn, hpn⟩ := hwf.next_spec hB
  obtain ⟨m0, hm0D, hm0, hpm0⟩ := hwf.next_spec hA
  obtain ⟨h2, hadd, hN, hP, hdata, _⟩ := add_fields h hp hn hm0
  have hmD : (if A = p then n else m0) ∈ D := by
    split
    · exact hnD
    · exact hm0D
  have hmB : (if A = p then n else m0) ≠ B := by
    by_cases hAp : A = p
    · rw [if_pos hAp]
      intro hc
      rw [hc] at hpn
      rw [hpn] at hp
      exact hne (hAp.trans (Option.some.inj hp).symm)
    · rw [if_neg hAp]
      intro hc
      rw [hc] at hpm0
      rw [hpm0] at hp
      exact hAp (Option.some.inj hp)
  refine ⟨h2, hadd, wf_of_forward ?_, hdata⟩
  intro x hx
  by_cases hxA : x = A
  · refine ⟨B, hB, ?_, ?_⟩
    · rw [hN, if_pos hxA]
    · rw [hP, if_neg (Ne.symm hmB), if_pos rfl, hxA]
  by_cases hxB : x = B
  · refine ⟨(if A = p then n else m0), hmD, ?_, ?_⟩
    · rw [hN, if_neg hxA, if_pos hxB]
    · rw [hP, if_pos rfl, hxB]
  by_cases hxp : x = p
  · have hAp : A ≠ p := fun hc => hxA (hxp.trans hc.symm)
    have hnm : n ≠ (if A = p then n else m0) := by
      rw [if_neg hAp]
      intro hc
      rw [hc] at hpn
      rw [hpn] at hpm0
      exact hne (Option.some.inj hpm0).symm
    have hnB : n ≠ B := by
      intro hc
      rw [hc] at hpn
      rw [hpn] at hp
      exact hxB (hxp.trans (Option.some.inj hp).symm)
    refine ⟨n, hnD, ?_, ?_⟩
    · rw [hN, if_neg hxA, if_neg hxB, if_pos hxp]
    · rw [hP, if_neg hnm, if_neg hnB, if_pos rfl, hxp]
  · obtain ⟨z, hzD, hz, hpz⟩ := hwf.next_spec hx
    have hzm : z ≠ (if A = p then n else m0) := by
      by_cases hAp : A = p
      · rw [if_pos hAp]
        intro hc
        rw [hc] at hpz
        rw [hpz] at hpn
        exact hxB (Option.some.inj hpn)
      · rw [if_neg hAp]
        intro hc
        rw [hc] at hpz
        rw [hpz] at hpm0
        exact hxA (Option.some.inj hpm0)
    have hzB : z ≠ B := by
      intro hc
      rw [hc] at hpz
      rw [hpz] at hp
      exact hxp (Option.some.inj hp)
    have hzn : z ≠ n := by
      intro hc
      rw [hc] at hpz
      rw [hpz] at hpn
      exact hxB (Option.some.inj hpn)
    refine ⟨z, hzD, ?_, ?_⟩
    · rw [hN, if_neg hxA, if_neg hxB, if_neg hxp]
      exact hz
    · rw [hP, if_neg hzm, if_neg hzB, if_neg hzn]
      exact hpz

theorem wf_take {D : Finset Nat} {h : Heap α} {a : Nat} (hwf : WF D h) (ha : a ∈ D) :
    ∃ h2, LinkNode.take h a = some h2 ∧ WF D h2 ∧
      (∀ x, (h2 x).data = (h x).data) := by
  obtain ⟨p, hpD, hp, hnp⟩ := hwf.prev_spec ha
  obtain ⟨n, hnD, hn, hpn⟩ := hwf.next_spec ha
  obtain ⟨h2, htake, hN, hP, hdata, _⟩ := take_fields h hp hn
  refine ⟨h2, htake, wf_of_forward ?_, hdata⟩
  intro x hx
  by_cases hxa : x = a
  · refine ⟨a, ha, ?_, ?_⟩
    · rw [hN, if_pos hxa]
    · rw [hP, if_pos rfl, hxa]
  by_cases hxp : x = p
  · have hna : n ≠ a := by
      intro hc
      rw [hc] at hn
      exact hxa (hxp.trans (hwf.next_inj ha hpD hn hnp).symm)
    refine ⟨n, hnD, ?_, ?_⟩
    · rw [hN, if_neg hxa, if_pos hxp]
    · rw [hP, if_neg hna, if_pos rfl, hxp]
  · obtain ⟨z, hzD, hz, hpz⟩ := hwf.next_spec hx
    have hza : z ≠ a := by
      intro hc
      rw [hc] at hpz
      rw [hpz] at hp
      exact hxp (Option.some.inj hp)
    have hzn : z ≠ n := by
      intro hc
      rw [hc] at hpz
      rw [hpz] at hpn
      exact hxa (Option.some.inj hpn)
    refine ⟨z, hzD, ?_, ?_⟩
    · rw [hN, if_neg hxa, if_neg hxp]
      exact hz
    · rw [hP, if_neg hza, if_neg hzn]
      exact hpz

theorem wf_drop {D : Finset Nat} {h : Heap α} {a : Nat} (hwf : WF D h) (ha : a ∈ D) :
    ∃ h1, LinkNode.drop h a = some h1 ∧ WF (D.erase a) h1 ∧
      (∀ x, (h1 x).data = (h x).data) := by
  obtain ⟨p, hpD, hp, hnp⟩ := hwf.prev_spec ha
  obtain ⟨n, hnD, hn, hpn⟩ := hwf.next_spec ha
  refine ⟨ListHead.delistWrites h p n, ?_, wf_of_forward ?_, ?_⟩
  · exact delist_eq h hp hn
  · intro x hx
    have hxa : x ≠ a := Finset.ne_of_mem_erase hx
    have hxD : x ∈ D := Finset.mem_of_mem_erase hx
    by_cases hxp : x = p
    · have hna : n ≠ a := by
        intro hc
        rw [hc] at hn
        exact hxa (hxp.trans (hwf.next_inj ha hpD hn hnp).symm)
      refine ⟨n, Finset.mem_erase_of_ne_of_mem hna hnD, ?_, ?_⟩
      · rw [readNext_delistWrites, if_pos hxp]
      · rw [readPrev_delistWrites, if_pos rfl, hxp]
    · obtain ⟨z, hzD, hz, hpz⟩ := hwf.next_spec hxD
      have hza : z ≠ a := by
        intro hc
        rw [hc] at hpz
        rw [hpz] at hp
        exact hxp (Option.some.inj hp)
      have hzn : z ≠ n := by
        intro hc
        rw [hc] at hpz
        rw [hpz] at hpn
        exact hxa (Option.some.inj hpn)
      refine ⟨z, Finset.mem_erase_of_ne_of_mem hza hzD, ?_, ?_⟩
      · rw [readNext_delistWrites, if_neg hxp]
        exact hz
      · rw [readPrev_delistWrites, if_neg hzn]
        exact hpz
  · intro x
    exact data_delistWrites h p n x

/-! ### Orbits of the successor map -/

theorem iterNext_add_eq (h : Heap α) (a : Nat) (i j : Nat) :
    iterNext h a (i + j) = (iterNext h a i).bind fun b => iterNext h b j := by
  induction j with
  | zero =>
    show iterNext h a i = _
    cases iterNext h a i <;> rfl
  | succ j ih =>
    show iterNext h a (i + j + 1) = _
    rw [iterNext, ih]
    cases iterNext h a i with
    | none => rfl
    | some b => rfl

theorem iterNext_succ_front (h : Heap α) (a k : Nat) :
    iterNext h a (k + 1) = (readNext h a).bind fun b => iterNext h b k := by
  have := iterNext_add_eq h a 1 k
  rw [Nat.add_comm 1 k] at this
  rw [this]
  show ((readNext h a).bind fun b => iterNext h b k) = _
  rfl

theorem iter_closed {D : Finset Nat} {h : Heap α} (hwf : WF D h) {a : Nat}
    (ha : a ∈ D) (k : Nat) : ∃ b ∈ D, iterNext h a k = some b := by
  induction k with
  | zero => exact ⟨a, ha, rfl⟩
  | succ k ih =>
    obtain ⟨b, hb, hbe⟩ := ih
    obtain ⟨c, hc, hce, _⟩ := hwf.next_spec hb
    exact ⟨c, hc, by rw [iterNext, hbe, Option.some_bind, hce]⟩

theorem iter_cancel {D : Finset Nat} {h : Heap α} (hwf : WF D h) {a : Nat}
    (ha : a ∈ D) : ∀ i j, i ≤ j → iterNext h a i = iterNext h a j →
    iterNext h a (j - i) = some a := by
  intro i
  induction i with
  | zero =>
    intro j _ hij
    rw [Nat.sub_zero, ← hij]
    rfl
  | succ i ih =>
    intro j hle hij
    obtain ⟨j, rfl⟩ : ∃ j0, j = j0 + 1 :=
      ⟨j - 1, by omega⟩
    obtain ⟨x, hxD, hxe⟩ := iter_closed hwf ha i
    obtain ⟨y, hyD, hye⟩ := iter_closed hwf ha j
    rw [iterNext, iterNext, hxe, hye, Option.some_bind, Option.some_bind] at hij
    obtain ⟨c, hcD, hc, _⟩ := hwf.next_spec hxD
    have hxy : x = y := by
      apply hwf.next_inj hxD hyD hc
      rw [← hij]
      exact hc
    rw [Nat.succ_sub_succ]
    apply ih j (by omega)
    rw [hxe, hye, hxy]

theorem period_exists {D : Finset Nat} {h : Heap α} (hwf : WF D h) {a : Nat}
    (ha : a ∈ D) : ∃ m, 0 < m ∧ m ≤ D.card ∧ iterNext h a m = some a := by
  have hmaps : ∀ k ∈ Finset.range (D.card + 1),
      (iterNext h a k).getD 0 ∈ D := by
    intro k _
    obtain ⟨b, hb, hbe⟩ := iter_closed hwf ha k
    rw [hbe]
    exact hb
  obtain ⟨i, hi, j, hj, hij, heq⟩ :=
    Finset.exists_ne_map_eq_of_card_lt_of_maps_to
      (by rw [Finset.card_range]; omega) hmaps
  rw [Finset.mem_range] at hi hj
  obtain ⟨bi, _, hbi⟩ := iter_closed hwf ha i
  obtain ⟨bj, _, hbj⟩ := iter_closed hwf ha j
  rw [hbi, hbj] at heq
  simp only [Option.getD_some] at heq
  have hiter : iterNext h a i = iterNext h a j := by
    rw [hbi, hbj, heq]
  rcases Nat.lt_or_ge i j with hlt | hge
  · exact ⟨j - i, by omega, by omega, iter_cancel hwf ha i j (by omega) hiter⟩
  · have hlt2 : j < i := by omega
    exact ⟨i - j, by omega, by omega, iter_cancel hwf ha j i (by omega) hiter.symm⟩

theorem iter_period_add {h : Heap α} {a n : Nat} (hper : iterNext h a n = some a)
    (k : Nat) : iterNext h a (n + k) = iterNext h a k := by
  rw [iterNext_add_eq, hper, Option.some_bind]

theorem iter_mod {h : Heap α} {a n : Nat} (hper : iterNext h a n = some a)
    (hn : 0 < n) (k : Nat) : iterNext h a k = iterNext h a (k % n) := by
  induction k using Nat.strong_induction_on with
  | _ k ih =>
    rcases Nat.lt_or_ge k n with hlt | hge
    · rw [Nat.mod_eq_of_lt hlt]
    · have hk : k = n + (k - n) := by omega
      have hstep : iterNext h a k = iterNext h a (k - n) := by
        conv_lhs => rw [hk]
        rw [iter_period_add hper]
      rw [hstep, ih (k - n) (by omega)]
      congr 1
      conv_rhs => rw [hk]
      rw [Nat.add_mod_left]

theorem iterNextD_spec {D : Finset Nat} {h : Heap α} (hwf : WF D h) {a : Nat}
    (ha : a ∈ D) (k : Nat) :
    iterNext h a k = some (iterNextD h a k) ∧ iterNextD h a k ∈ D := by
  obtain ⟨b, hb, hbe⟩ := iter_closed hwf ha k
  rw [iterNextD, hbe]
  exact ⟨rfl, hb⟩

theorem readNext_iterNextD {D : Finset Nat} {h : Heap α} (hwf : WF D h) {a : Nat}
    (ha : a ∈ D) (k : Nat) :
    readNext h (iterNextD h a k) = some (iterNextD h a (k + 1)) := by
  have h1 := (iterNextD_spec hwf ha k).1
  have h2 := (iterNextD_spec hwf ha (k + 1)).1
  rw [iterNext, h1, Option.some_bind] at h2
  exact h2

/-- Core traversal lemma: from the `i`-th orbit element, with enough fuel, the
trace is exactly the remaining `n - i` orbit elements, where `n` is the least
period of the starting record `a`. -/
theorem traceAux_orbit {D : Finset Nat} {h : Heap α} {a n : Nat} (hwf : WF D h)
    (ha : a ∈ D) (hn0 : 0 < n) (hper : iterNext h a n = some a)
    (hmin : ∀ m, 0 < m → m < n → iterNext h a m ≠ some a) :
    ∀ fuel i, i < n → n - i ≤ fuel →
      traceAux h a fuel (iterNextD h a i) =
        some ((List.range (n - i)).map fun k => iterNextD h a (i + k)) := by
  intro fuel
  induction fuel with
  | zero =>
    intro i hi hfuel
    omega
  | succ fuel ih =>
    intro i hi hfuel
    rw [traceAux, readNext_iterNextD hwf ha i]
    show (if iterNextD h a (i + 1) = a then some [iterNextD h a i]
      else Option.map (fun as => iterNextD h a i :: as)
        (traceAux h a fuel (iterNextD h a (i + 1)))) = _
    by_cases hend : i + 1 = n
    · have hpe : iterNext h a (i + 1) = some a := by
        rw [hend]
        exact hper
      have hstop : iterNextD h a (i + 1) = a := by
        have := (iterNextD_spec hwf ha (i + 1)).1
        rw [hpe] at this
        exact (Option.some.inj this).symm
      rw [if_pos hstop]
      have hni : n - i = 1 := by omega
      rw [hni]
      show some [iterNextD h a i] = some [iterNextD h a (i + 0)]
      rw [Nat.add_zero]
    · have hgo : iterNextD h a (i + 1) ≠ a := by
        intro hc
        apply hmin (i + 1) (by omega) (by omega)
        rw [(iterNextD_spec hwf ha (i + 1)).1, hc]
      rw [if_neg hgo, ih (i + 1) (by omega) (by omega)]
      rw [Option.map_some']
      congr 1
      have hsub : n - i = (n - (i + 1)) + 1 := by omega
      rw [hsub, List.range_succ_eq_map, List.map_cons, List.map_map]
      congr 1
      apply List.map_congr_left
      intro k _
      show iterNextD h a (i + 1 + k) = iterNextD h a (i + (k + 1))
      congr 1
      omega

/-- Every live address has a least positive period under the successor map,
bounded by the number of live records. -/
theorem minimal_period {D : Finset Nat} {h : Heap α} (hwf : WF D h) {a : Nat}
    (ha : a ∈ D) :
    ∃ n, 0 < n ∧ n ≤ D.card ∧ iterNext h a n = some a ∧
      ∀ m, 0 < m → m < n → iterNext h a m ≠ some a := by
  obtain ⟨w, hw0, hwcard, hwper⟩ := period_exists hwf ha
  have hPex : ∃ m, 0 < m ∧ iterNext h a m = some a := ⟨w, hw0, hwper⟩
  refine ⟨Nat.find hPex, (Nat.find_spec hPex).1, ?_, (Nat.find_spec hPex).2, ?_⟩
  · exact le_trans (Nat.find_min' hPex ⟨hw0, hwper⟩) hwcard
  · intro m hm0 hmlt hme
    exact Nat.find_min hPex hmlt ⟨hm0, hme⟩

theorem iterNextD_inj_on {D : Finset Nat} {h : Heap α} {a n : Nat} (hwf : WF D h)
    (ha : a ∈ D) (hmin : ∀ m, 0 < m → m < n → iterNext h a m ≠ some a)
    {i j : Nat} (hi : i < n) (hj : j < n)
    (hij : iterNextD h a i = iterNextD h a j) : i = j := by
  have key : ∀ i j, i ≤ j → j < n → iterNextD h a i = iterNextD h a j → i = j := by
    intro i j hle hjn hije
    by_contra hne2
    have hiter : iterNext h a i = iterNext h a j := by
      rw [(iterNextD_spec hwf ha i).1, (iterNextD_spec hwf ha j).1, hije]
    exact hmin (j - i) (by omega) (by omega) (iter_cancel hwf ha i j hle hiter)
  rcases Nat.le_total i j with hle | hle
  · exact key i j hle hj hij
  · exact (key j i hle hi hij.symm).symm

theorem orbitList_length (h : Heap α) (a n : Nat) : (orbitList h a n).length = n := by
  simp [orbitList]

theorem orbitList_nodup {D : Finset Nat} {h : Heap α} {a n : Nat} (hwf : WF D h)
    (ha : a ∈ D) (hmin : ∀ m, 0 < m → m < n → iterNext h a m ≠ some a) :
    (orbitList h a n).Nodup := by
  apply List.Nodup.map_on ?_ (List.nodup_range n)
  intro i hi j hj hij
  rw [List.mem_range] at hi hj
  exact iterNextD_inj_on hwf ha hmin hi hj hij

theorem orbitList_mem {D : Finset Nat} {h : Heap α} {a n : Nat} (hwf : WF D h)
    (ha : a ∈ D) (hn0 : 0 < n) (hper : iterNext h a n = some a) (b : Nat) :
    b ∈ orbitList h a n ↔ ∃ k, iterNext h a k = some b := by
  constructor
  · intro hb
    obtain ⟨k, _, rfl⟩ := List.mem_map.1 hb
    exact ⟨k, (iterNextD_spec hwf ha k).1⟩
  · rintro ⟨k, hk⟩
    rw [iter_mod hper hn0 k] at hk
    apply List.mem_map.2
    refine ⟨k % n, List.mem_range.2 (Nat.mod_lt k hn0), ?_⟩
    rw [iterNextD, hk]
    rfl

theorem orbitList_getElem (h : Heap α) (a n i : Nat) (hi : i < n) :
    (orbitList h a n).get ⟨i, by rw [orbitList_length]; exact hi⟩ =
      iterNextD h a i := by
  simp [orbitList]

theorem orbitList_head (h : Heap α) (a : Nat) {n : Nat} (hn0 : 0 < n) :
    (orbitList h a n).head? = some a := by
  obtain ⟨n, rfl⟩ : ∃ n0, n = n0 + 1 := ⟨n - 1, by omega⟩
  rw [orbitList, List.range_succ_eq_map, List.map_cons]
  rfl

theorem orbitList_subset_of_mem {D : Finset Nat} {h : Heap α} {a n : Nat}
    (hwf : WF D h) (ha : a ∈ D) {b : Nat} (hb : b ∈ orbitList h a n) : b ∈ D := by
  obtain ⟨k, _, rfl⟩ := List.mem_map.1 hb
  exact (iterNextD_spec hwf ha k).2

theorem orbitList_card_le {D : Finset Nat} {h : Heap α} {a n : Nat} (hwf : WF D h)
    (ha : a ∈ D) (hmin : ∀ m, 0 < m → m < n → iterNext h a m ≠ some a) :
    n ≤ D.card := by
  have hnd := orbitList_nodup hwf ha hmin
  have hsub : (orbitList h a n).toFinset ⊆ D := by
    intro b hb
    exact orbitList_subset_of_mem hwf ha (List.mem_toFinset.1 hb)
  have := Finset.card_le_card hsub
  rw [List.toFinset_card_of_nodup hnd, orbitList_length] at this
  exact this

/-- With enough fuel the traversal trace from `a` is exactly `a`'s orbit. -/
theorem traceAux_eq_orbitList {D : Finset Nat} {h : Heap α} {a n : Nat}
    (hwf : WF D h) (ha : a ∈ D) (hn0 : 0 < n) (hper : iterNext h a n = some a)
    (hmin : ∀ m, 0 < m → m < n → iterNext h a m ≠ some a)
    {fuel : Nat} (hfuel : n ≤ fuel) :
    traceAux h a fuel a = some (orbitList h a n) := by
  have := traceAux_orbit hwf ha hn0 hper hmin fuel 0 hn0 (by omega)
  have hz : iterNextD h a 0 = a := rfl
  rw [hz] at this
  rw [this]
  congr 1
  rw [Nat.sub_zero]
  apply List.map_congr_left
  intro k _
  rw [Nat.zero_add]

/-! ### Traversal as a fold over the trace -/

theorem for_eachAux_eq_trace (f : σ → α → σ) (h : Heap α) (selfA : Nat) :
    ∀ fuel cur s, ListHead.for_eachAux f h selfA fuel cur s =
      (traceAux h selfA fuel cur).map fun as =>
        (as.map fun x => (h x).data).foldl f s := by
  intro fuel
  induction fuel with
  | zero => intro cur s; rfl
  | succ fuel ih =>
    intro cur s
    rw [ListHead.for_eachAux, traceAux]
    cases hnx : readNext h cur with
    | none => rfl
    | some nxt =>
      show (if nxt = selfA then some (f s (h cur).data)
        else ListHead.for_eachAux f h selfA fuel nxt (f s (h cur).data)) =
        Option.map (fun as => (as.map fun x => (h x).data).foldl f s)
          (if nxt = selfA then some [cur]
            else Option.map (fun as => cur :: as) (traceAux h selfA fuel nxt))
      by_cases hs : nxt = selfA
      · rw [if_pos hs, if_pos hs]
        rfl
      · rw [if_neg hs, if_neg hs, ih nxt (f s (h cur).data), Option.map_map]
        cases traceAux h selfA fuel nxt with
        | none => rfl
        | some as =>
          rw [Option.map_some', Option.map_some']
          show some ((as.map fun x => (h x).data).foldl f (f s (h cur).data)) = _
          rw [Function.comp_apply, List.map_cons, List.foldl_cons]

/-! ### The flipped heap: backward traversal is forward traversal after `flipHeap` -/

theorem readNext_flipHeap (h : Heap α) (x : Nat) :
    readNext (flipHeap h) x = readPrev h x := rfl

theorem readPrev_flipHeap (h : Heap α) (x : Nat) :
    readPrev (flipHeap h) x = readNext h x := rfl

theorem data_flipHeap (h : Heap α) (x : Nat) :
    ((flipHeap h) x).data = (h x).data := rfl

theorem flipHeap_flipHeap (h : Heap α) : flipHeap (flipHeap h) = h :=
  funext fun _ => rfl

theorem wf_flipHeap {D : Finset Nat} {h : Heap α} (hwf : WF D h) :
    WF D (flipHeap h) := fun a ha => ⟨(hwf a ha).2, (hwf a ha).1⟩

theorem for_each_revAux_eq_flip (f : σ → α → σ) (h : Heap α) (selfA : Nat) :
    ∀ fuel cur s, ListHead.for_each_revAux f h selfA fuel cur s =
      ListHead.for_eachAux f (flipHeap h) selfA fuel cur s := by
  intro fuel
  induction fuel with
  | zero => intro cur s; rfl
  | succ fuel ih =>
    intro cur s
    rw [ListHead.for_each_revAux, ListHead.for_eachAux]
    cases hp : readPrev h cur with
    | none =>
      have hp2 : readNext (flipHeap h) cur = none := hp
      rw [hp2]
    | some prv =>
      have hp2 : readNext (flipHeap h) cur = some prv := hp
      rw [hp2]
      show (if prv = selfA then some (f s (h cur).data)
          else ListHead.for_each_revAux f h selfA fuel prv (f s (h cur).data)) =
        (if prv = selfA then some (f s ((flipHeap h) cur).data)
          else ListHead.for_eachAux f (flipHeap h) selfA fuel prv
            (f s ((flipHeap h) cur).data))
      by_cases hs : prv = selfA
      · rw [if_pos hs, if_pos hs]
        rfl
      · rw [if_neg hs, if_neg hs, data_flipHeap, ih]

theorem iter_flip_back {D : Finset Nat} {h : Heap α} (hwf : WF D h) :
    ∀ k {b c : Nat}, b ∈ D → iterNext h b k = some c →
      iterNext (flipHeap h) c k = some b := by
  intro k
  induction k with
  | zero =>
    intro b c hb he
    cases Option.some.inj he
    rfl
  | succ k ih =>
    intro b c hb he
    obtain ⟨x, hxD, hxe⟩ := iter_closed hwf hb k
    rw [iterNext, hxe, Option.some_bind] at he
    rw [iterNext_succ_front]
    have hpc : readNext (flipHeap h) c = some x := (hwf.next_closed hxD he).2
    rw [hpc, Option.some_bind]
    exact ih hb hxe

theorem flip_period {D : Finset Nat} {h : Heap α} {a n : Nat} (hwf : WF D h)
    (ha : a ∈ D) (hper : iterNext h a n = some a)
    (hmin : ∀ m, 0 < m → m < n → iterNext h a m ≠ some a) :
    iterNext (flipHeap h) a n = some a ∧
      ∀ m, 0 < m → m < n → iterNext (flipHeap h) a m ≠ some a := by
  refine ⟨iter_flip_back hwf n ha hper, ?_⟩
  intro m hm0 hmn hc
  have := iter_flip_back (wf_flipHeap hwf) m ha hc
  rw [flipHeap_flipHeap] at this
  exact hmin m hm0 hmn this

theorem iterNextD_flip {D : Finset Nat} {h : Heap α} {a n : Nat} (hwf : WF D h)
    (ha : a ∈ D) (hper : iterNext h a n = some a) {i : Nat} (hi : i ≤ n) :
    iterNextD (flipHeap h) a i = iterNextD h a (n - i) := by
  obtain ⟨b, hbD, hbe⟩ := iter_closed hwf ha (n - i)
  have hsplit : iterNext h b i = some a := by
    have := iterNext_add_eq h a (n - i) i
    rw [Nat.sub_add_cancel hi, hper, hbe, Option.some_bind] at this
    exact this.symm
  have hflip := iter_flip_back hwf i hbD hsplit
  rw [iterNextD, hflip, iterNextD, hbe]

/-- The flipped orbit: the backward traversal order is the starting record
followed by the rest of the forward order reversed. -/
theorem orbitList_flip {D : Finset Nat} {h : Heap α} {a n : Nat} (hwf : WF D h)
    (ha : a ∈ D) (hn0 : 0 < n) (hper : iterNext h a n = some a) :
    orbitList (flipHeap h) a n = a :: ((orbitList h a n).tail).reverse := by
  apply List.ext_getElem
  · rw [orbitList_length, List.length_cons, List.length_reverse, List.length_tail,
      orbitList_length]
    omega
  · intro i h1 h2
    rw [orbitList_length] at h1
    show (orbitList (flipHeap h) a n).get ⟨i, by rw [orbitList_length]; exact h1⟩ = _
    rw [orbitList_getElem (flipHeap h) a n i h1]
    cases i with
    | zero =>
      show iterNextD (flipHeap h) a 0 = _
      rfl
    | succ i =>
      have hlen : ((orbitList h a n).tail).reverse.length = n - 1 := by
        rw [List.length_reverse, List.length_tail, orbitList_length]
      have hi1 : i < ((orbitList h a n).tail).reverse.length := by omega
      show _ = ((orbitList h a n).tail).reverse[i]
      rw [List.getElem_reverse]
      rw [List.getElem_tail]
      have hidx : (orbitList h a n).tail.length - 1 - i + 1 < (orbitList h a n).length := by
        rw [List.length_tail, orbitList_length]
        omega
      show iterNextD (flipHeap h) a (i + 1) =
        (orbitList h a n).get ⟨(orbitList h a n).tail.length - 1 - i + 1, hidx⟩
      have hidx2 : (orbitList h a n).tail.length - 1 - i + 1 = n - (i + 1) := by
        rw [List.length_tail, orbitList_length]
        omega
      rw [iterNextD_flip hwf ha hper (by omega)]
      have hlt : n - (i + 1) < n := by omega
      have hget := orbitList_getElem h a n (n - (i + 1)) hlt
      rw [← hget]
      congr 1
      exact Fin.ext hidx2.symm

/-! ### Mutable traversal -/

theorem trace_congr_links {h h2 : Heap α} (hl : ∀ x, (h2 x).list = (h x).list)
    (selfA : Nat) : ∀ fuel cur, traceAux h2 selfA fuel cur = traceAux h selfA fuel cur := by
  intro fuel
  induction fuel with
  | zero => intro cur; rfl
  | succ fuel ih =>
    intro cur
    have hrn : readNext h2 cur = readNext h cur := by
      rw [readNext, readNext, hl]
    rw [traceAux, traceAux, hrn]
    cases readNext h cur with
    | none => rfl
    | some nxt =>
      show (if nxt = selfA then some [cur]
          else Option.map (fun as => cur :: as) (traceAux h2 selfA fuel nxt)) =
        (if nxt = selfA then some [cur]
          else Option.map (fun as => cur :: as) (traceAux h selfA fuel nxt))
      rw [ih]

theorem list_flipHeap_writeData (h : Heap α) (a : Nat) (v : α) (x : Nat) :
    ((flipHeap (writeData h a v)) x).list = ((flipHeap h) x).list := by
  show (⟨((writeData h a v) x).list.next, ((writeData h a v) x).list.prev⟩ : ListHead) = _
  rw [list_writeData]
  rfl

theorem for_each_mutAux_trace (f : σ → α → σ × α) (selfA : Nat) :
    ∀ fuel (h : Heap α) cur s as, traceAux h selfA fuel cur = some as → as.Nodup →
      ListHead.for_each_mutAux f h selfA fuel cur s =
        some (writeDataList h (as.zip (runVisitor f s (as.map fun x => (h x).data)).2),
          (runVisitor f s (as.map fun x => (h x).data)).1) := by
  intro fuel
  induction fuel with
  | zero =>
    intro h cur s as htr
    exact absurd htr (by rw [traceAux]; exact Option.noConfusion)
  | succ fuel ih =>
    intro h cur s as htr hnd
    rw [traceAux] at htr
    rw [ListHead.for_each_mutAux]
    cases hnx : readNext h cur with
    | none =>
      rw [hnx] at htr
      exact absurd htr Option.noConfusion
    | some nxt =>
      rw [hnx] at htr
      have htr0 : (if nxt = selfA then some [cur]
          else Option.map (fun as => cur :: as) (traceAux h selfA fuel nxt)) =
          some as := htr
      have hrn1 : readNext (writeData h cur (f s (h cur).data).2) cur = some nxt := by
        rw [readNext_writeData]
        exact hnx
      rw [hrn1]
      show (if nxt = selfA
          then some (writeData h cur (f s (h cur).data).2, (f s (h cur).data).1)
          else ListHead.for_each_mutAux f (writeData h cur (f s (h cur).data).2)
            selfA fuel nxt (f s (h cur).data).1) = _
      by_cases hs : nxt = selfA
      · rw [if_pos hs] at htr0 ⊢
        cases Option.some.inj htr0
        show some (writeData h cur (f s (h cur).data).2, (f s (h cur).data).1) = _
        rw [List.map_singleton]
        show _ = some (writeDataList h ([cur].zip
            ((runVisitor f (f s (h cur).data).1 []).1,
              (f s (h cur).data).2 :: (runVisitor f (f s (h cur).data).1 []).2).2),
          ((runVisitor f (f s (h cur).data).1 []).1,
            (f s (h cur).data).2 :: (runVisitor f (f s (h cur).data).1 []).2).1)
        show _ = some (writeDataList (writeData h cur (f s (h cur).data).2) [],
          (f s (h cur).data).1)
        rfl
      · rw [if_neg hs] at htr0 ⊢
        obtain ⟨as1, htr1, rfl⟩ := Option.map_eq_some'.1 htr0
        have hcur : cur ∉ as1 := (List.nodup_cons.1 hnd).1
        have hnd1 : as1.Nodup := (List.nodup_cons.1 hnd).2
        have htr2 : traceAux (writeData h cur (f s (h cur).data).2) selfA fuel nxt
            = some as1 := by
          rw [trace_congr_links (list_writeData h cur (f s (h cur).data).2) selfA]
          exact htr1
        rw [ih (writeData h cur (f s (h cur).data).2) nxt (f s (h cur).data).1 as1
          htr2 hnd1]
        have hdats : as1.map (fun x =>
            ((writeData h cur (f s (h cur).data).2) x).data) =
            as1.map fun x => (h x).data := by
          apply List.map_congr_left
          intro x hx
          rw [data_writeData, if_neg]
          intro hc
          exact hcur (hc ▸ hx)
        rw [hdats]
        show _ = some (writeDataList h (((cur :: as1).zip
            (runVisitor f s ((cur :: as1).map fun x => (h x).data)).2)),
          (runVisitor f s ((cur :: as1).map fun x => (h x).data)).1)
        rw [List.map_cons]
        show _ = some (writeDataList h ((cur :: as1).zip
            ((runVisitor f (f s (h cur).data).1 (as1.map fun x => (h x).data)).1,
              (f s (h cur).data).2 ::
              (runVisitor f (f s (h cur).data).1 (as1.map fun x => (h x).data)).2).2),
          ((runVisitor f (f s (h cur).data).1 (as1.map fun x => (h x).data)).1,
            (f s (h cur).data).2 ::
            (runVisitor f (f s (h cur).data).1 (as1.map fun x => (h x).data)).2).1)
        rw [List.zip_cons_cons]
        show _ = some (writeDataList (writeData h cur (f s (h cur).data).2)
            (as1.zip (runVisitor f (f s (h cur).data).1
              (as1.map fun x => (h x).data)).2),
          (runVisitor f (f s (h cur).data).1 (as1.map fun x => (h x).data)).1)
        rfl

theorem for_each_rev_mutAux_trace (f : σ → α → σ × α) (selfA : Nat) :
    ∀ fuel (h : Heap α) cur s as, traceAux (flipHeap h) selfA fuel cur = some as →
      as.Nodup →
      ListHead.for_each_rev_mutAux f h selfA fuel cur s =
        some (writeDataList h (as.zip (runVisitor f s (as.map fun x => (h x).data)).2),
          (runVisitor f s (as.map fun x => (h x).data)).1) := by
  intro fuel
  induction fuel with
  | zero =>
    intro h cur s as htr
    exact absurd htr (by rw [traceAux]; exact Option.noConfusion)
  | succ fuel ih =>
    intro h cur s as htr hnd
    rw [traceAux] at htr
    rw [ListHead.for_each_rev_mutAux]
    cases hnx : readNext (flipHeap h) cur with
    | none =>
      rw [hnx] at htr
      exact absurd htr Option.noConfusion
    | some nxt =>
      rw [hnx] at htr
      have htr0 : (if nxt = selfA then some [cur]
          else Option.map (fun as => cur :: as) (traceAux (flipHeap h) selfA fuel nxt)) =
          some as := htr
      have hrn1 : readPrev (writeData h cur (f s (h cur).data).2) cur = some nxt := by
        rw [readPrev_writeData]
        exact hnx
      rw [hrn1]
      show (if nxt = selfA
          then some (writeData h cur (f s (h cur).data).2, (f s (h cur).data).1)
          else ListHead.for_each_rev_mutAux f (writeData h cur (f s (h cur).data).2)
            selfA fuel nxt (f s (h cur).data).1) = _
      by_cases hs : nxt = selfA
      · rw [if_pos hs] at htr0 ⊢
        cases Option.some.inj htr0
        show some (writeData h cur (f s (h cur).data).2, (f s (h cur).data).1) = _
        rw [List.map_singleton]
        show _ = some (writeDataList (writeData h cur (f s (h cur).data).2) [],
          (f s (h cur).data).1)
        rfl
      · rw [if_neg hs] at htr0 ⊢
        obtain ⟨as1, htr1, rfl⟩ := Option.map_eq_some'.1 htr0
        have hcur : cur ∉ as1 := (List.nodup_cons.1 hnd).1
        have hnd1 : as1.Nodup := (List.nodup_cons.1 hnd).2
        have htr2 : traceAux (flipHeap (writeData h cur (f s (h cur).data).2))
            selfA fuel nxt = some as1 := by
          rw [trace_congr_links
            (fun x => list_flipHeap_writeData h cur (f s (h cur).data).2 x) selfA]
          exact htr1
        rw [ih (writeData h cur (f s (h cur).data).2) nxt (f s (h cur).data).1 as1
          htr2 hnd1]
        have hdats : as1.map (fun x =>
            ((writeData h cur (f s (h cur).data).2) x).data) =
            as1.map fun x => (h x).data := by
          apply List.map_congr_left
          intro x hx
          rw [data_writeData, if_neg]
          intro hc
          exact hcur (hc ▸ hx)
        rw [hdats]
        show _ = some (writeDataList h (((cur :: as1).zip
            (runVisitor f s ((cur :: as1).map fun x => (h x).data)).2)),
          (runVisitor f s ((cur :: as1).map fun x => (h x).data)).1)
        rw [List.map_cons]
        show _ = some (writeDataList h ((cur :: as1).zip
            ((runVisitor f (f s (h cur).data).1 (as1.map fun x => (h x).data)).1,
              (f s (h cur).data).2 ::
              (runVisitor f (f s (h cur).data).1 (as1.map fun x => (h x).data)).2).2),
          ((runVisitor f (f s (h cur).data).1 (as1.map fun x => (h x).data)).1,
            (f s (h cur).data).2 ::
            (runVisitor f (f s (h cur).data).1 (as1.map fun x => (h x).data)).2).1)
        rw [List.zip_cons_cons]
        show _ = some (writeDataList (writeData h cur (f s (h cur).data).2)
            (as1.zip (runVisitor f (f s (h cur).data).1
              (as1.map fun x => (h x).data)).2),
          (runVisitor f (f s (h cur).data).1 (as1.map fun x => (h x).data)).1)
        rfl

theorem for_each_mutAux_links (f : σ → α → σ × α) (selfA : Nat) :
    ∀ fuel (h : Heap α) cur s h2 s2,
      ListHead.for_each_mutAux f h selfA fuel cur s = some (h2, s2) →
      ∀ x, (h2 x).list = (h x).list := by
  intro fuel
  induction fuel with
  | zero =>
    intro h cur s h2 s2 he
    exact absurd he (by rw [ListHead.for_each_mutAux]; exact Option.noConfusion)
  | succ fuel ih =>
    intro h cur s h2 s2 he
    rw [ListHead.for_each_mutAux] at he
    cases hnx : readNext (writeData h cur (f s (h cur).data).2) cur with
    | none =>
      rw [hnx] at he
      exact absurd he Option.noConfusion
    | some nxt =>
      rw [hnx] at he
      have he0 : (if nxt = selfA
          then some (writeData h cur (f s (h cur).data).2, (f s (h cur).data).1)
          else ListHead.for_each_mutAux f (writeData h cur (f s (h cur).data).2)
            selfA fuel nxt (f s (h cur).data).1) = some (h2, s2) := he
      by_cases hs : nxt = selfA
      · rw [if_pos hs] at he0
        have hpair := Option.some.inj he0
        injection hpair with hh hss
        intro x
        rw [← hh, list_writeData]
      · rw [if_neg hs] at he0
        intro x
        rw [ih (writeData h cur (f s (h cur).data).2) nxt (f s (h cur).data).1
          h2 s2 he0 x, list_writeData]

theorem for_each_rev_mutAux_links (f : σ → α → σ × α) (selfA : Nat) :
    ∀ fuel (h : Heap α) cur s h2 s2,
      ListHead.for_each_rev_mutAux f h selfA fuel cur s = some (h2, s2) →
      ∀ x, (h2 x).list = (h x).list := by
  intro fuel
  induction fuel with
  | zero =>
    intro h cur s h2 s2 he
    exact absurd he (by rw [ListHead.for_each_rev_mutAux]; exact Option.noConfusion)
  | succ fuel ih =>
    intro h cur s h2 s2 he
    rw [ListHead.for_each_rev_mutAux] at he
    cases hnx : readPrev (writeData h cur (f s (h cur).data).2) cur with
    | none =>
      rw [hnx] at he
      exact absurd he Option.noConfusion
    | some prv =>
      rw [hnx] at he
      have he0 : (if prv = selfA
          then some (writeData h cur (f s (h cur).data).2, (f s (h cur).data).1)
          else ListHead.for_each_rev_mutAux f (writeData h cur (f s (h cur).data).2)
            selfA fuel prv (f s (h cur).data).1) = some (h2, s2) := he
      by_cases hs : prv = selfA
      · rw [if_pos hs] at he0
        have hpair := Option.some.inj he0
        injection hpair with hh hss
        intro x
        rw [← hh, list_writeData]
      · rw [if_neg hs] at he0
        intro x
        rw [ih (writeData h cur (f s (h cur).data).2) prv (f s (h cur).data).1
          h2 s2 he0 x, list_writeData]

/-! ### Every reachable state satisfies the ring invariant -/

theorem wf_built {D : Finset Nat} {h : Heap α} (hb : Built D h) : WF D h := by
  induction hb with
  | base h =>
    intro a ha
    exact absurd ha (Finset.not_mem_empty a)
  | new hb a ha v ih => exact wf_new ih ha v
  | add hb A B hA hBm hne hs ih =>
    obtain ⟨h2, he, hwf2, _⟩ := wf_add ih hA hBm hne
    have hget : (LinkNode.add _ A B).get hs = h2 :=
      Option.some.inj ((Option.some_get hs).trans he)
    rw [hget]
    exact hwf2
  | add_to hb A B hA hBm hne hs ih =>
    obtain ⟨h2, he, hwf2, _⟩ := wf_add ih hBm hA (Ne.symm hne)
    have he2 : LinkNode.add_to _ A B = some h2 := he
    have hget : (LinkNode.add_to _ A B).get hs = h2 :=
      Option.some.inj ((Option.some_get hs).trans he2)
    rw [hget]
    exact hwf2
  | take hb a ha hs ih =>
    obtain ⟨h2, he, hwf2, _⟩ := wf_take ih ha
    have hget : (LinkNode.take _ a).get hs = h2 :=
      Option.some.inj ((Option.some_get hs).trans he)
    rw [hget]
    exact hwf2

/-! ### Remaining helper lemmas -/

theorem for_each_of_selfloop {h2 : Heap α} {a : Nat} (hs : readNext h2 a = some a)
    (f : σ → α → σ) (s : σ) {fuel : Nat} (hf : 1 ≤ fuel) :
    LinkNode.for_each f h2 a s fuel = some (f s (h2 a).data) := by
  obtain ⟨k, rfl⟩ : ∃ k, fuel = k + 1 := ⟨fuel - 1, by omega⟩
  rw [LinkNode.for_each, ListHead.for_each, ListHead.for_eachAux, hs]
  show (if a = a then some (f s (h2 a).data)
    else ListHead.for_eachAux f h2 a k a (f s (h2 a).data)) = _
  rw [if_pos rfl]

theorem for_each_rev_of_selfloop {h2 : Heap α} {a : Nat}
    (hs : readPrev h2 a = some a) (f : σ → α → σ) (s : σ) {fuel : Nat}
    (hf : 1 ≤ fuel) :
    LinkNode.for_each_rev f h2 a s fuel = some (f s (h2 a).data) := by
  obtain ⟨k, rfl⟩ : ∃ k, fuel = k + 1 := ⟨fuel - 1, by omega⟩
  rw [LinkNode.for_each_rev, ListHead.for_each_rev, ListHead.for_each_revAux, hs]
  show (if a = a then some (f s (h2 a).data)
    else ListHead.for_each_revAux f h2 a k a (f s (h2 a).data)) = _
  rw [if_pos rfl]

theorem wf_congr_links {D : Finset Nat} {h h2 : Heap α}
    (hl : ∀ x, (h2 x).list = (h x).list) (hwf : WF D h) : WF D h2 := by
  have hrn : ∀ y, readNext h2 y = readNext h y := by
    intro y
    rw [readNext, readNext, hl]
  have hrp : ∀ y, readPrev h2 y = readPrev h y := by
    intro y
    rw [readPrev, readPrev, hl]
  intro a ha
  simp only [hrn, hrp]
  exact hwf a ha

theorem iterNext_congr_links {h h2 : Heap α}
    (hl : ∀ x, (h2 x).list = (h x).list) (a : Nat) :
    ∀ k, iterNext h2 a k = iterNext h a k := by
  intro k
  induction k with
  | zero => rfl
  | succ k ih =>
    rw [iterNext, iterNext, ih]
    cases iterNext h a k with
    | none => rfl
    | some b =>
      rw [Option.some_bind, Option.some_bind, readNext, readNext, hl]

/-- All four traversal entry points succeed on a live member of a ring
satisfying the invariant, with fuel equal to the period of the member. -/
theorem traversals_total {D : Finset Nat} {h : Heap α} {a : Nat} (hwf : WF D h)
    (ha : a ∈ D) :
    ∃ fuel, ∀ (σ2 : Type) (f : σ2 → α → σ2) (g : σ2 → α → σ2 × α) (s : σ2),
      (LinkNode.for_each f h a s fuel).isSome = true ∧
      (LinkNode.for_each_rev f h a s fuel).isSome = true ∧
      (LinkNode.for_each_mut g h a s fuel).isSome = true ∧
      (LinkNode.for_each_mut_rev g h a s fuel).isSome = true := by
  obtain ⟨n, hn0, hncard, hper, hmin⟩ := minimal_period hwf ha
  obtain ⟨hperF, hminF⟩ := flip_period hwf ha hper hmin
  have hwfF := wf_flipHeap hwf
  have htr : traceAux h a n a = some (orbitList h a n) :=
    traceAux_eq_orbitList hwf ha hn0 hper hmin (le_refl n)
  have htrF : traceAux (flipHeap h) a n a = some (orbitList (flipHeap h) a n) :=
    traceAux_eq_orbitList hwfF ha hn0 hperF hminF (le_refl n)
  have hnd : (orbitList h a n).Nodup := orbitList_nodup hwf ha hmin
  have hndF : (orbitList (flipHeap h) a n).Nodup := orbitList_nodup hwfF ha hminF
  refine ⟨n, ?_⟩
  intro σ2 f g s
  refine ⟨?_, ?_, ?_, ?_⟩
  · rw [LinkNode.for_each, ListHead.for_each, for_eachAux_eq_trace, htr]
    rfl
  · rw [LinkNode.for_each_rev, ListHead.for_each_rev, for_each_revAux_eq_flip,
      for_eachAux_eq_trace, htrF]
    rfl
  · rw [LinkNode.for_each_mut, ListHead.for_each_mut,
      for_each_mutAux_trace g a n h a s (orbitList h a n) htr hnd]
    rfl
  · rw [LinkNode.for_each_mut_rev, ListHead.for_each_rev_mut,
      for_each_rev_mutAux_trace g a n h a s (orbitList (flipHeap h) a n) htrF hndF]
    rfl

theorem built_pairHeap : Built pairDom pairHeap :=
  Built.new (Built.new (Built.base emptyHeap) 0 (by decide) 10) 1 (by decide) 20

theorem heap_cell_eq {c : Inner α} {d : α} {pr nx : Option Nat}
    (h1 : c.data = d) (h2 : c.list.prev = pr) (h3 : c.list.next = nx) :
    c = ⟨d, ⟨pr, nx⟩⟩ := by
  cases c with
  | mk cd cl =>
    cases cl with
    | mk cp cn =>
      cases h1
      cases h2
      cases h3
      rfl

/-! ### The claims -/

/-- C9: `splice_before(A, B)` — `LinkNode::add_to` — produces exactly the same
post-state (the same optional heap, hence all link fields and values) as
`splice(B, A)`, i.e. `LinkNode::add(B, A)`, on every heap. -/
theorem C9_add_to_eq_add_swapped (h : Heap α) (A B : Nat) :
    LinkNode.add_to h A B = LinkNode.add h B A := rfl

/-- C5: `LinkNode::new` produces a node whose link record is a singleton ring
(`prev == next == its own address`) holding the given value, leaving every
other record untouched, and any forward or backward traversal of the fresh
node with at least one unit of fuel visits exactly one element, whose value
is the stored one. -/
theorem C5_new_singleton (h : Heap α) (a : Nat) (v : α) :
    readPrev (LinkNode.new h a v) a = some a ∧
    readNext (LinkNode.new h a v) a = some a ∧
    LinkNode.deref (LinkNode.new h a v) a = v ∧
    (∀ x, x ≠ a → (LinkNode.new h a v) x = h x) ∧
    (∀ (σ2 : Type) (f : σ2 → α → σ2) (s : σ2) (fuel : Nat), 1 ≤ fuel →
      LinkNode.for_each f (LinkNode.new h a v) a s fuel = some (f s v) ∧
      LinkNode.for_each_rev f (LinkNode.new h a v) a s fuel = some (f s v)) := by
  have hpr : readPrev (LinkNode.new h a v) a = some a := by
    rw [readPrev_new, if_pos rfl]
  have hnx : readNext (LinkNode.new h a v) a = some a := by
    rw [readNext_new, if_pos rfl]
  have hdv : (LinkNode.new h a v a).data = v := by
    rw [new_apply_self]
  refine ⟨hpr, hnx, hdv, fun x hx => new_apply_ne h a v hx, ?_⟩
  intro σ2 f s fuel hf
  constructor
  · rw [for_each_of_selfloop hnx f s hf, hdv]
  · rw [for_each_rev_of_selfloop hpr f s hf, hdv]

/-- C7: reading or writing the owned value through the handle (`Deref` /
`DerefMut`) changes no link field of any record and no other record at all,
and preserves ring membership and the traversal trace; read-only traversal
has no effect on the heap at all in this embedding (it is a pure fold). -/
theorem C7_value_transparency (h : Heap α) (a : Nat) (v : α) :
    (∀ x, ((LinkNode.deref_mut_write h a v) x).list = (h x).list) ∧
    (∀ x, x ≠ a → (LinkNode.deref_mut_write h a v) x = h x) ∧
    LinkNode.deref (LinkNode.deref_mut_write h a v) a = v ∧
    (∀ S b, (∃ k, iterNext (LinkNode.deref_mut_write h a v) S k = some b) ↔
      ∃ k, iterNext h S k = some b) ∧
    (∀ S fuel cur, traceAux (LinkNode.deref_mut_write h a v) S fuel cur =
      traceAux h S fuel cur) := by
  have hl : ∀ x, ((LinkNode.deref_mut_write h a v) x).list = (h x).list :=
    fun x => list_writeData h a v x
  refine ⟨hl, ?_, ?_, ?_, ?_⟩
  · intro x hx
    exact writeData_apply_ne h a v hx
  · show ((writeData h a v) a).data = v
    rw [data_writeData, if_pos rfl]
  · intro S b
    constructor
    · rintro ⟨k, hk⟩
      exact ⟨k, by rw [← iterNext_congr_links hl S k]; exact hk⟩
    · rintro ⟨k, hk⟩
      exact ⟨k, by rw [iterNext_congr_links hl S k]; exact hk⟩
  · intro S fuel cur
    exact trace_congr_links hl S fuel cur

/-- C4: `LinkNode::take` always leaves `a` as a singleton ring and, when `a`
was not alone, relinks its former neighbors to each other, touching no other
record and no data; on an already-singleton node it changes nothing at all. -/
theorem C4_take {D : Finset Nat} {h : Heap α} {a : Nat} (hwf : WF D h)
    (ha : a ∈ D) {p n : Nat} (hp : readPrev h a = some p)
    (hn : readNext h a = some n) :
    ∃ h2, LinkNode.take h a = some h2 ∧
      readPrev h2 a = some a ∧ readNext h2 a = some a ∧
      (p ≠ a → readNext h2 p = some n ∧ readPrev h2 n = some p) ∧
      (∀ x, x ≠ a → x ≠ p → x ≠ n → h2 x = h x) ∧
      (∀ x, (h2 x).data = (h x).data) ∧
      (p = a → ∀ x, h2 x = h x) := by
  obtain ⟨p2, hp2D, hp2, hnp2⟩ := hwf.prev_spec ha
  obtain ⟨n2, hn2D, hn2, hpn2⟩ := hwf.next_spec ha
  cases hp.symm.trans hp2
  cases hn.symm.trans hn2
  obtain ⟨h2, htake, hN, hP, hdata, hframe⟩ := take_fields h hp hn
  refine ⟨h2, htake, ?_, ?_, ?_, hframe, hdata, ?_⟩
  · rw [hP, if_pos rfl]
  · rw [hN, if_pos rfl]
  · intro hpa
    have hna : n ≠ a := by
      intro hc
      rw [hc] at hn
      exact hpa (hwf.next_inj hp2D ha hnp2 hn)
    constructor
    · rw [hN, if_neg hpa, if_pos rfl]
    · rw [hP, if_neg hna, if_pos rfl]
  · intro hpa
    have hna : n = a := by
      rw [hpa] at hnp2
      exact Option.some.inj (hn.symm.trans hnp2)
    intro x
    by_cases hxa : x = a
    · rw [hxa]
      have e2 : (h2 a).list.prev = some a := by
        show readPrev h2 a = some a
        rw [hP, if_pos rfl]
      have e3 : (h2 a).list.next = some a := by
        show readNext h2 a = some a
        rw [hN, if_pos rfl]
      have f2 : (h a).list.prev = some a := by
        show readPrev h a = some a
        rw [hp, hpa]
      have f3 : (h a).list.next = some a := by
        show readNext h a = some a
        rw [hn, hna]
      rw [heap_cell_eq (hdata a) e2 e3, heap_cell_eq rfl f2 f3]
    · rw [hframe x hxa (fun hc => hxa (hc.trans hpa)) (fun hc => hxa (hc.trans hna))]

/-- C6: destroying a node (`Drop for LinkNode`, which only delists) is, on
every surviving record, identical to `take` followed by releasing the
allocation: the two resulting heaps agree outside the dropped address, the
former neighbors are relinked, data is untouched, and the ring invariant
holds on the remaining live set. -/
theorem C6_drop {D : Finset Nat} {h : Heap α} {a : Nat} (hwf : WF D h)
    (ha : a ∈ D) :
    ∃ h1 h2, LinkNode.drop h a = some h1 ∧ LinkNode.take h a = some h2 ∧
      (∀ x, x ≠ a → h1 x = h2 x) ∧ WF (D.erase a) h1 ∧
      (∀ x, (h1 x).data = (h x).data) := by
  obtain ⟨p, hpD, hp, hnp⟩ := hwf.prev_spec ha
  obtain ⟨n, hnD, hn, hpn⟩ := hwf.next_spec ha
  obtain ⟨h1, hdrop, hwf1, hdata1⟩ := wf_drop hwf ha
  have hdrop2 : LinkNode.drop h a = some (ListHead.delistWrites h p n) :=
    delist_eq h hp hn
  have h1eq : h1 = ListHead.delistWrites h p n :=
    Option.some.inj (hdrop.symm.trans hdrop2)
  refine ⟨h1, ListHead.init_head h1 a, hdrop, ?_, ?_, hwf1, hdata1⟩
  · have hdel : ListHead.delist h a = some (ListHead.delistWrites h p n) :=
      delist_eq h hp hn
    rw [LinkNode.take, hdel, Option.map_some', h1eq]
  · intro x hx
    rw [init_head_apply_ne h1 a hx]

/-- C1: splice (`LinkNode::add(A, B)`, `A ≠ B`) removes `B` from its prior
ring — `B`'s old predecessor `p` and old successor `n` become directly
linked — and makes `B` the immediate successor of `A`, with `B` now
preceding `A`'s old successor (which is `n` when `B` was that successor);
every record other than `A`, `B`, `p`, `n` and `A`'s old successor keeps
all its links, and no record's value changes. -/
theorem C1_splice {D : Finset Nat} {h : Heap α} {A B : Nat} (hwf : WF D h)
    (hA : A ∈ D) (hB : B ∈ D) (hne : A ≠ B) {p n m0 : Nat}
    (hp : readPrev h B = some p) (hn : readNext h B = some n)
    (hm0 : readNext h A = some m0) :
    ∃ h2, LinkNode.add h A B = some h2 ∧
      readNext h2 A = some B ∧
      readPrev h2 B = some A ∧
      readNext h2 B = some (if A = p then n else m0) ∧
      readPrev h2 (if A = p then n else m0) = some B ∧
      (p ≠ A → p ≠ B → readNext h2 p = some n) ∧
      (p ≠ A → n ≠ B → readPrev h2 n = some p) ∧
      (∀ x, x ≠ A → x ≠ B → x ≠ p → x ≠ n → x ≠ (if A = p then n else m0) →
        h2 x = h x) ∧
      (∀ x, (h2 x).data = (h x).data) := by
  have hnp : readNext h p = some B := (hwf.prev_closed hB hp).2
  have hpn : readPrev h n = some B := (hwf.next_closed hB hn).2
  have hpm0 : readPrev h m0 = some A := (hwf.next_closed hA hm0).2
  obtain ⟨h2, hadd, hN, hP, hdata, hframe⟩ := add_fields h hp hn hm0
  have hmB : (if A = p then n else m0) ≠ B := by
    by_cases hAp : A = p
    · rw [if_pos hAp]
      intro hc
      rw [hc] at hpn
      rw [hpn] at hp
      exact hne (hAp.trans (Option.some.inj hp).symm)
    · rw [if_neg hAp]
      intro hc
      rw [hc] at hpm0
      rw [hpm0] at hp
      exact hAp (Option.some.inj hp)
  refine ⟨h2, hadd, ?_, ?_, ?_, ?_, ?_, ?_, hframe, hdata⟩
  · rw [hN, if_pos rfl]
  · rw [hP, if_neg (Ne.symm hmB), if_pos rfl]
  · rw [hN, if_neg (fun hc => hne hc.symm), if_pos rfl]
  · rw [hP, if_pos rfl]
  · intro hpA hpB
    rw [hN, if_neg hpA, if_neg hpB, if_pos rfl]
  · intro hpA hnB
    have hnm : n ≠ (if A = p then n else m0) := by
      rw [if_neg (fun hc => hpA hc.symm)]
      intro hc
      rw [hc] at hpn
      rw [hpn] at hpm0
      exact hne (Option.some.inj hpm0).symm
    rw [hP, if_neg hnm, if_neg hnB, if_pos rfl]

/-- C3: the ring invariant holds for the `insert`-extended live set after
construction and is preserved by every public heap-transforming operation:
`add`, `add_to`, `take`, `drop`, value writes through `DerefMut`, and both
mutable traversals (read-only traversals and `Deref` do not produce a heap in
this embedding, so they preserve it trivially). -/
theorem C3_invariant {D : Finset Nat} {h : Heap α} (hwf : WF D h) :
    (∀ a v, a ∉ D → WF (insert a D) (LinkNode.new h a v)) ∧
    (∀ A B, A ∈ D → B ∈ D → A ≠ B →
      ∃ h2, LinkNode.add h A B = some h2 ∧ WF D h2) ∧
    (∀ A B, A ∈ D → B ∈ D → A ≠ B →
      ∃ h2, LinkNode.add_to h A B = some h2 ∧ WF D h2) ∧
    (∀ a, a ∈ D → ∃ h2, LinkNode.take h a = some h2 ∧ WF D h2) ∧
    (∀ a, a ∈ D → ∃ h1, LinkNode.drop h a = some h1 ∧ WF (D.erase a) h1) ∧
    (∀ a v, WF D (LinkNode.deref_mut_write h a v)) ∧
    (∀ (σ2 : Type) (f : σ2 → α → σ2 × α) (a : Nat) (s : σ2) (fuel : Nat)
      (h2 : Heap α) (s2 : σ2),
      LinkNode.for_each_mut f h a s fuel = some (h2, s2) → WF D h2) ∧
    (∀ (σ2 : Type) (f : σ2 → α → σ2 × α) (a : Nat) (s : σ2) (fuel : Nat)
      (h2 : Heap α) (s2 : σ2),
      LinkNode.for_each_mut_rev f h a s fuel = some (h2, s2) → WF D h2) := by
  refine ⟨?_, ?_, ?_, ?_, ?_, ?_, ?_, ?_⟩
  · intro a v ha
    exact wf_new hwf ha v
  · intro A B hA hB hne
    obtain ⟨h2, he, hwf2, _⟩ := wf_add hwf hA hB hne
    exact ⟨h2, he, hwf2⟩
  · intro A B hA hB hne
    obtain ⟨h2, he, hwf2, _⟩ := wf_add hwf hB hA (Ne.symm hne)
    exact ⟨h2, he, hwf2⟩
  · intro a ha
    obtain ⟨h2, he, hwf2, _⟩ := wf_take hwf ha
    exact ⟨h2, he, hwf2⟩
  · intro a ha
    obtain ⟨h1, he, hwf1, _⟩ := wf_drop hwf ha
    exact ⟨h1, he, hwf1⟩
  · intro a v
    exact wf_writeData hwf a v
  · intro σ2 f a s fuel h2 s2 he
    exact wf_congr_links (for_each_mutAux_links f a fuel h a s h2 s2 he) hwf
  · intro σ2 f a s fuel h2 s2 he
    exact wf_congr_links (for_each_rev_mutAux_links f a fuel h a s h2 s2 he) hwf

/-- C8: on any ring satisfying the invariant, all four traversal entry points
terminate successfully: there is a fuel bound (the ring size) at which the
loop returns to the start and yields a result, for every visitor. -/
theorem C8_termination {D : Finset Nat} {h : Heap α} {a : Nat} (hwf : WF D h)
    (ha : a ∈ D) :
    ∃ fuel, ∀ (σ2 : Type) (f : σ2 → α → σ2) (g : σ2 → α → σ2 × α) (s : σ2),
      (LinkNode.for_each f h a s fuel).isSome = true ∧
      (LinkNode.for_each_rev f h a s fuel).isSome = true ∧
      (LinkNode.for_each_mut g h a s fuel).isSome = true ∧
      (LinkNode.for_each_mut_rev g h a s fuel).isSome = true :=
  traversals_total hwf ha

/-- C10: although `LinkNode::new` leaves `prev`/`next` uninitialized
(`none` in the embedding), on every state reachable by the public API the
`assume_init` reads of `delist`, `add` and the traversals only ever see
initialized fields: all the embedded operations are total (`isSome`) on
live addresses. -/
theorem C10_no_uninit_reads {D : Finset Nat} {h : Heap α} (hb : Built D h) :
    (∀ A B, A ∈ D → B ∈ D → (LinkNode.add h A B).isSome = true) ∧
    (∀ A B, A ∈ D → B ∈ D → (LinkNode.add_to h A B).isSome = true) ∧
    (∀ a, a ∈ D → (LinkNode.take h a).isSome = true ∧
      (LinkNode.drop h a).isSome = true) ∧
    (∀ a, a ∈ D →
      ∃ fuel, ∀ (σ2 : Type) (f : σ2 → α → σ2) (g : σ2 → α → σ2 × α) (s : σ2),
        (LinkNode.for_each f h a s fuel).isSome = true ∧
        (LinkNode.for_each_rev f h a s fuel).isSome = true ∧
        (LinkNode.for_each_mut g h a s fuel).isSome = true ∧
        (LinkNode.for_each_mut_rev g h a s fuel).isSome = true) := by
  have hwf := wf_built hb
  have hadd : ∀ A B, A ∈ D → B ∈ D → (LinkNode.add h A B).isSome = true := by
    intro A B hA hB
    obtain ⟨p, hpD, hp, hnp⟩ := hwf.prev_spec hB
    obtain ⟨n, hnD, hn, hpn⟩ := hwf.next_spec hB
    obtain ⟨m0, hm0D, hm0, hpm0⟩ := hwf.next_spec hA
    rw [linkNode_add_eq h hp hn hm0]
    rfl
  refine ⟨hadd, ?_, ?_, ?_⟩
  · intro A B hA hB
    exact hadd B A hB hA
  · intro a ha
    obtain ⟨p, hpD, hp, hnp⟩ := hwf.prev_spec ha
    obtain ⟨n, hnD, hn, hpn⟩ := hwf.next_spec ha
    constructor
    · rw [linkNode_take_eq h hp hn]
      rfl
    · rw [LinkNode.drop, delist_eq h hp hn]
      rfl
  · intro a ha
    exact traversals_total hwf ha

/-- C2: on every ring reachable by construct/splice/detach and every member
`S`, there is a visit list `as` — the trace actually computed by the loop —
that starts at `S`, has no duplicates, contains exactly the members of `S`'s
ring, and lists them in `next`-pointer order; with enough fuel, `for_each`
folds any visitor over exactly the values of `as` in order, `for_each_rev`
folds it over the reverse cyclic order (`S` first, then the rest reversed),
and the two mutable traversals invoke an arbitrary stateful read-write
visitor exactly once per member in those same orders, writing each returned
value back to the visited record. -/
theorem C2_traversal {D : Finset Nat} {h : Heap α} {S : Nat} (hb : Built D h)
    (hS : S ∈ D) :
    ∃ as : List Nat, 0 < as.length ∧
      traceAux h S D.card S = some as ∧
      as.head? = some S ∧
      as.Nodup ∧
      (∀ b, b ∈ as ↔ ∃ k, iterNext h S k = some b) ∧
      (∀ i, (hi : i < as.length) → iterNext h S i = some (as.get ⟨i, hi⟩)) ∧
      (∀ (σ2 : Type) (f : σ2 → α → σ2) (s : σ2) (fuel : Nat), as.length ≤ fuel →
        LinkNode.for_each f h S s fuel =
          some ((as.map fun x => (h x).data).foldl f s) ∧
        LinkNode.for_each_rev f h S s fuel =
          some (((S :: as.tail.reverse).map fun x => (h x).data).foldl f s)) ∧
      (∀ (σ2 : Type) (g : σ2 → α → σ2 × α) (s : σ2) (fuel : Nat),
        as.length ≤ fuel →
        LinkNode.for_each_mut g h S s fuel =
          some (writeDataList h
              (as.zip (runVisitor g s (as.map fun x => (h x).data)).2),
            (runVisitor g s (as.map fun x => (h x).data)).1) ∧
        LinkNode.for_each_mut_rev g h S s fuel =
          some (writeDataList h ((S :: as.tail.reverse).zip
                (runVisitor g s ((S :: as.tail.reverse).map fun x => (h x).data)).2),
            (runVisitor g s
              ((S :: as.tail.reverse).map fun x => (h x).data)).1)) := by
  have hwf := wf_built hb
  obtain ⟨n, hn0, hncard, hper, hmin⟩ := minimal_period hwf hS
  obtain ⟨hperF, hminF⟩ := flip_period hwf hS hper hmin
  have hwfF := wf_flipHeap hwf
  have hlen : (orbitList h S n).length = n := orbitList_length h S n
  have hflip := orbitList_flip hwf hS hn0 hper
  refine ⟨orbitList h S n, ?_, ?_, ?_, ?_, ?_, ?_, ?_, ?_⟩
  · rw [hlen]
    exact hn0
  · exact traceAux_eq_orbitList hwf hS hn0 hper hmin hncard
  · exact orbitList_head h S hn0
  · exact orbitList_nodup hwf hS hmin
  · exact orbitList_mem hwf hS hn0 hper
  · intro i hi
    rw [(iterNextD_spec hwf hS i).1]
    congr 1
    rw [hlen] at hi
    exact (orbitList_getElem h S n i hi).symm
  · intro σ2 f s fuel hfuel
    rw [hlen] at hfuel
    constructor
    · rw [LinkNode.for_each, ListHead.for_each, for_eachAux_eq_trace,
        traceAux_eq_orbitList hwf hS hn0 hper hmin hfuel, Option.map_some']
    · rw [LinkNode.for_each_rev, ListHead.for_each_rev, for_each_revAux_eq_flip,
        for_eachAux_eq_trace,
        traceAux_eq_orbitList hwfF hS hn0 hperF hminF hfuel, Option.map_some',
        hflip]
      rfl
  · intro σ2 g s fuel hfuel
    rw [hlen] at hfuel
    constructor
    · exact for_each_mutAux_trace g S fuel h S s (orbitList h S n)
        (traceAux_eq_orbitList hwf hS hn0 hper hmin hfuel)
        (orbitList_nodup hwf hS hmin)
    · have htrF : traceAux (flipHeap h) S fuel S =
          some (S :: (orbitList h S n).tail.reverse) := by
        rw [traceAux_eq_orbitList hwfF hS hn0 hperF hminF hfuel, hflip]
      have hndF : (S :: (orbitList h S n).tail.reverse).Nodup := by
        rw [← hflip]
        exact orbitList_nodup hwfF hS hminF
      exact for_each_rev_mutAux_trace g S fuel h S s
        (S :: (orbitList h S n).tail.reverse) htrF hndF

/-! ### Concrete witnesses -/

theorem C1_splice_witness : ∃ h2, LinkNode.add pairHeap 0 1 = some h2 ∧
    readNext h2 0 = some 1 ∧ readPrev h2 1 = some 0 := by
  obtain ⟨h2, he, e1, e2, _⟩ :=
    @C1_splice Nat pairDom pairHeap 0 1 (by decide) (by decide) (by decide)
      (by decide) 1 1 0 (by decide) (by decide) (by decide)
  exact ⟨h2, he, e1, e2⟩

theorem C2_traversal_witness : ∃ as : List Nat,
    traceAux pairHeap 0 pairDom.card 0 = some as ∧ as.head? = some 0 ∧
    as.Nodup := by
  obtain ⟨as, _, e1, e2, e3, _⟩ :=
    @C2_traversal Nat pairDom pairHeap 0 built_pairHeap (by decide)
  exact ⟨as, e1, e2, e3⟩

theorem C3_invariant_witness : ∃ h2, LinkNode.take pairHeap 0 = some h2 ∧
    WF pairDom h2 :=
  (@C3_invariant Nat pairDom pairHeap (by decide)).2.2.2.1 0 (by decide)

theorem C4_take_witness : ∃ h2, LinkNode.take pairHeap 0 = some h2 ∧
    readPrev h2 0 = some 0 ∧ readNext h2 0 = some 0 := by
  obtain ⟨h2, he, e1, e2, _⟩ :=
    @C4_take Nat pairDom pairHeap 0 (by decide) (by decide) 0 0 (by decide)
      (by decide)
  exact ⟨h2, he, e1, e2⟩

theorem C5_new_singleton_witness :
    LinkNode.for_each (fun (s : List Nat) v => s ++ [v])
      (LinkNode.new emptyHeap 5 42) 5 [] 1 = some [42] :=
  ((C5_new_singleton emptyHeap 5 42).2.2.2.2 (List Nat)
    (fun s v => s ++ [v]) [] 1 (by decide)).1

theorem C6_drop_witness : ∃ h1 h2, LinkNode.drop pairHeap 0 = some h1 ∧
    LinkNode.take pairHeap 0 = some h2 ∧ WF (pairDom.erase 0) h1 := by
  obtain ⟨h1, h2, e1, e2, _, e4, _⟩ :=
    @C6_drop Nat pairDom pairHeap 0 (by decide) (by decide)
  exact ⟨h1, h2, e1, e2, e4⟩

theorem C7_value_transparency_witness :
    LinkNode.deref (LinkNode.deref_mut_write pairHeap 0 99) 0 = 99 :=
  (C7_value_transparency pairHeap 0 99).2.2.1

theorem C8_termination_witness : ∃ fuel,
    (LinkNode.for_each (fun (s : List Nat) v => s ++ [v])
      pairHeap 0 [] fuel).isSome = true := by
  obtain ⟨fuel, hf⟩ :=
    @C8_termination Nat pairDom pairHeap 0 (by decide) (by decide)
  exact ⟨fuel, (hf (List Nat) (fun s v => s ++ [v]) (fun s v => (s, v)) []).1⟩

theorem C10_no_uninit_reads_witness :
    (LinkNode.add pairHeap 0 1).isSome = true :=
  (@C10_no_uninit_reads Nat pairDom pairHeap built_pairHeap).1 0 1 (by decide)
    (by decide)

end Cdlist
